import Mathlib

/-!
Verification of the corpus-splitting module (`data/_prototype/split.py`).

Shallow embedding conventions:
* Utterance identifiers are `String`; a corpus is a list of utterance names
  `utts` together with a function `labels : String → List (ℚ × String)`
  giving each utterance's ordered phone-label sequence (end time, symbol);
  Python floats are modelled as exact rationals.
* Python sets of triphones are modelled as `List String` with set-semantics
  operations (`listUnion`, membership, set equality by double inclusion).
* The numpy random draws (`np.random.permutation`, `np.random.choice`) are
  modelled by explicit oracles: `build_initial_split` consumes a list of
  candidate visiting orders (one per attempted pass, modelling the
  retry-on-failure recursion; an exhausted list models non-termination), and
  `adjust_filesets` consumes a stream of pick indices `List Nat` (an
  exhausted stream models a non-terminating `while` loop).  Theorems
  quantify over all oracle values.  The seeded generator itself is modelled
  by a deterministic congruential stream (`lcg`): numpy's generator is an
  external library whose only relevant property here is determinism in the
  seed.
* File writing is modelled by returning the file contents that would be
  written; text files are `List Char`.
-/

namespace Split

/-- The sliding window of width 3 over a phone-label sequence, each window
joined with an underscore: the triphone list of an utterance, mirroring
the comprehension `'_'.join([phone[1] for phone in labels[i:i+3]]) for i in
range(len(labels) - 2)` in `load_triphones`. -/
def triphoneWindows : List (ℚ × String) → List String
  | a :: b :: c :: rest =>
      (a.2 ++ "_" ++ b.2 ++ "_" ++ c.2) :: triphoneWindows (b :: c :: rest)
  | _ => []

/-- The set of triphones contained in an utterance's label sequence
(`load_triphones` in the source builds a Python set; we deduplicate). -/
def load_triphones (labels : List (ℚ × String)) : List String :=
  (triphoneWindows labels).eraseDups

/-- `build_triphones_indexer`: map each utterance to its triphones that occur
in at least `limit` utterances of the corpus.  Utterance names are assumed
unique (they are dict keys in the source), so counting over `utts` matches
counting over the dict's values.  A triphone of an utterance lies in the
source's `triphones` set iff its utterance count reaches `limit`. -/
def build_triphones_indexer (limit : ℤ) (utts : List String)
    (labels : String → List (ℚ × String)) : String → List String :=
  let utterances : String → List String := fun u => load_triphones (labels u)
  let count : String → Nat := fun t =>
    (utts.filter (fun u => t ∈ utterances u)).length
  fun u => (utterances u).filter (fun t => limit ≤ (count t : ℤ))

/-- A fileset under construction: its assigned utterances (in order) and the
set of triphones covered so far (the dict `{'utt': [...], 'phones': set()}`
of the source). -/
structure FS where
  utt : List String
  phones : List String
deriving Repr, DecidableEq

/-- Set-union on lists: keep the left list and append the new elements of the
right one (models Python `set.union`). -/
def listUnion (l r : List String) : List String :=
  l ++ r.filter (fun x => x ∉ l)

/-- The coverage gain a fileset would get from an utterance: the number of the
utterance's indexed triphones not yet covered
(`sum(phone not in fileset['phones'] for phone in indexer[utterance])`). -/
def gain (idx : String → List String) (fs : FS) (u : String) : Nat :=
  ((idx u).filter (fun p => p ∉ fs.phones)).length

/-- Add an utterance to a fileset: append it and union in its triphones. -/
def addTo (idx : String → List String) (fs : FS) (u : String) : FS :=
  ⟨fs.utt ++ [u], listUnion fs.phones (idx u)⟩

/-- One loop iteration of `build_initial_split`: assign the utterance to the
fileset with the largest gain, ties broken by the first index
(`np.argmax`). -/
def assignUtt (idx : String → List String) (s : FS × FS × FS) (u : String) :
    FS × FS × FS :=
  let g0 := gain idx s.1 u
  let g1 := gain idx s.2.1 u
  let g2 := gain idx s.2.2 u
  if g1 ≤ g0 ∧ g2 ≤ g0 then (addTo idx s.1 u, s.2.1, s.2.2)
  else if g2 ≤ g1 then (s.1, addTo idx s.2.1 u, s.2.2)
  else (s.1, s.2.1, addTo idx s.2.2 u)

/-- One randomized greedy pass of `build_initial_split` over a given visiting
order of the utterances. -/
def initialPass (idx : String → List String) (order : List String) :
    FS × FS × FS :=
  order.foldl (assignUtt idx) (⟨[], []⟩, ⟨[], []⟩, ⟨[], []⟩)

/-- Boolean set equality of two lists (Python `set == set`). -/
def setEqB (l r : List String) : Bool :=
  l.all (fun x => x ∈ r) && r.all (fun x => x ∈ l)

/-- The final check of `build_initial_split`:
`filesets[0]['phones'] == filesets[1]['phones'] == filesets[2]['phones']`. -/
def allCovered (s : FS × FS × FS) : Bool :=
  setEqB s.1.phones s.2.1.phones && setEqB s.2.1.phones s.2.2.phones

/-- `build_initial_split`: run greedy passes until one passes the coverage
check, restarting with a fresh random order otherwise.  The pass orders are
supplied as an oracle list (each entry models one `np.random.permutation`
draw); `none` models the unbounded restart recursion running out of
attempts. -/
def build_initial_split (idx : String → List String) :
    List (List String) → Option (List String × List String × List String)
  | [] => none
  | o :: rest =>
      let s := initialPass idx o
      if allCovered s then some (s.1.utt, s.2.1.utt, s.2.2.utt)
      else build_initial_split idx rest

/-- A fileset covers a triphone when one of its utterances contains it. -/
def covers (idx : String → List String) (fs : List String) (t : String) :
    Prop :=
  ∃ u ∈ fs, t ∈ idx u

/-- The target sizes of `adjust_filesets`:
`n_obs[0] = int(np.ceil(total * pct_train))`,
`n_obs[1] = int(np.floor((total - n_obs[0]) / 2))`,
`n_obs[2] = total - sum(n_obs)`. -/
def n_target (total : ℕ) (pct : ℚ) : ℤ × ℤ × ℤ :=
  let n0 : ℤ := ⌈(total : ℚ) * pct⌉
  let n1 : ℤ := ((total : ℤ) - n0).fdiv 2
  let n2 : ℤ := (total : ℤ) - (n0 + n1)
  (n0, n1, n2)

/-- The movability test of `adjust_filesets`: an utterance may leave a fileset
only if each of its indexed triphones is carried by more than one utterance
of that fileset
(`all(sum(phone in indexer[utt] for utt in fileset) > 1 for phone in
indexer[chosen])`). -/
def movable (idx : String → List String) (fileset : List String)
    (chosen : String) : Bool :=
  (idx chosen).all (fun phone =>
    1 < (fileset.filter (fun utt => phone ∈ idx utt)).length)

/-- The `while len(moved) < n_moves` removal loop of `adjust_filesets`: draw a
random utterance from the fileset, remove it if movable.  Each iteration
consumes one pick from the oracle; an exhausted oracle (`none`) models the
loop failing to terminate.  Returns the shrunken fileset, the moved
utterances, and the unconsumed picks. -/
def removeLoop (idx : String → List String) (nMoves : Nat) :
    List Nat → List String → List String →
      Option (List String × List String × List Nat)
  | [], fileset, moved =>
      if nMoves ≤ moved.length then some (fileset, moved, []) else none
  | p :: rest, fileset, moved =>
      if nMoves ≤ moved.length then some (fileset, moved, p :: rest)
      else if fileset.isEmpty then none
      else
        let chosen := fileset.getD (p % fileset.length) ""
        if movable idx fileset chosen then
          removeLoop idx nMoves rest (fileset.erase chosen) (moved ++ [chosen])
        else removeLoop idx nMoves rest fileset moved

/-- Process one fileset in the first loop of `adjust_filesets`: shrink it when
it exceeds its target size, otherwise leave it untouched. -/
def shrinkFileset (idx : String → List String) (fileset : List String)
    (size : ℤ) (picks : List Nat) :
    Option (List String × List String × List Nat) :=
  if size < (fileset.length : ℤ) then
    removeLoop idx ((fileset.length : ℤ) - size).toNat picks fileset []
  else some (fileset, [], picks)

/-- The `for _ in range(size - len(fileset))` dispatch loop of
`adjust_filesets`: append `k` random draws from the shared pool to the
fileset, removing each from the pool (`np.random.choice` on an empty pool is
an error, modelled by `none`). -/
def addLoop : Nat → List Nat → List String → List String →
    Option (List String × List String × List Nat)
  | 0, picks, fileset, takenOut => some (fileset, takenOut, picks)
  | k + 1, picks, fileset, takenOut =>
      match picks with
      | [] => none
      | p :: rest =>
          if takenOut.isEmpty then none
          else
            let chosen := takenOut.getD (p % takenOut.length) ""
            addLoop k rest (fileset ++ [chosen]) (takenOut.erase chosen)

/-- `adjust_filesets`: compute the target sizes, shrink the oversized filesets
(collecting the removed utterances into the shared `taken_out` pool in
order), then grow the undersized ones from the pool.  Random draws are
supplied by the pick oracle, threaded through the phases in program order.
Each `r` result is (shrunken fileset, moved utterances, remaining picks);
each `a` result is (grown fileset, remaining pool, remaining picks). -/
def adjust_filesets (filesets : List String × List String × List String)
    (pct : ℚ) (idx : String → List String) (picks : List Nat) :
    Option (List String × List String × List String) :=
  let total := filesets.1.length + filesets.2.1.length + filesets.2.2.length
  let n := n_target total pct
  (shrinkFileset idx filesets.1 n.1 picks).bind fun r0 =>
  (shrinkFileset idx filesets.2.1 n.2.1 r0.2.2).bind fun r1 =>
  (shrinkFileset idx filesets.2.2 n.2.2 r1.2.2).bind fun r2 =>
  let takenOut := r0.2.1 ++ r1.2.1 ++ r2.2.1
  (addLoop (n.1 - (r0.1.length : ℤ)).toNat r2.2.2 r0.1 takenOut).bind fun a0 =>
  (addLoop (n.2.1 - (r1.1.length : ℤ)).toNat a0.2.2 r1.1 a0.2.1).bind fun a1 =>
  (addLoop (n.2.2 - (r2.1.length : ℤ)).toNat a1.2.2 r2.1 a1.2.1).bind fun a2 =>
  some (a0.1, a1.1, a2.1)

/-- The text joining of the Fileset Writer: `'\n'.join(fileset)`. -/
def joinLines : List (List Char) → List Char
  | [] => []
  | [l] => l
  | l :: ls => l ++ '\n' :: joinLines ls

/-- Split a character stream at newline characters (accumulator-based). -/
def splitLinesAux : List Char → List Char → List (List Char)
  | [], acc => [acc.reverse]
  | c :: cs, acc =>
      if c = '\n' then acc.reverse :: splitLinesAux cs []
      else splitLinesAux cs (c :: acc)

/-- Read a written fileset file back line by line (iterating over an empty
file yields no lines). -/
def readLines (s : List Char) : List (List Char) :=
  if s = [] then [] else splitLinesAux s []

/-- `store_filesets`: the files written for a named fileset dict — one
`<name>.txt` file per fileset, holding the newline-joined utterance list.
The filesystem side effect is modelled by returning the file contents. -/
def store_filesets (filesets : List (String × List String)) :
    List (String × List Char) :=
  filesets.map (fun nf =>
    (nf.1 ++ ".txt", joinLines (nf.2.map String.data)))

/-- A deterministic congruential step, standing in for numpy's seeded
generator (an external library; only its determinism in the seed is
relevant). -/
def lcg (s : Nat) : Nat :=
  (6364136223846793005 * s + 1442695040888963407) % (2 ^ 64)

/-- Draw a permutation of `l` driven by the generator state, returning the
permutation and the advanced state (models `np.random.permutation`). -/
def permAux : Nat → List String → Nat → List String × Nat
  | 0, _, s => ([], s)
  | n + 1, l, s =>
      if l.isEmpty then ([], s)
      else
        let i := s % l.length
        let res := permAux n (l.eraseIdx i) (lcg s)
        (l.getD i "" :: res.1, res.2)

/-- Fisher–Yates-style permutation of a list from a generator state. -/
def randPerm (l : List String) (s : Nat) : List String × Nat :=
  permAux l.length l s

/-- The oracle of visiting orders for `build_initial_split`: `fuel`
successive random permutations of the utterance list. -/
def ordersFrom (utts : List String) : Nat → Nat → List (List String)
  | 0, _ => []
  | n + 1, s =>
      let res := randPerm utts s
      res.1 :: ordersFrom utts n res.2

/-- The oracle of pick indices for `adjust_filesets`: a stream of generator
values. -/
def picksFrom : Nat → Nat → List Nat
  | 0, _ => []
  | n + 1, s => s :: picksFrom n (lcg s)

/-- `split_corpus_prototype`: validate the configuration, then index, split,
rebalance and write.  Python's `check_type_validity` calls are type checks,
discharged by the typing of the embedding.  An `Except.error` models the
raised `ValueError` (no work is done and no file content is produced); the
inner `Option` is the termination oracle of the two randomized phases; a
successful run returns the files written by `store_filesets`. -/
def split_corpus_prototype (pct : ℚ) (limit : ℤ) (seed : Nat)
    (utts : List String) (labels : String → List (ℚ × String)) (fuel : Nat) :
    Except String (Option (List (String × List Char))) :=
  if ¬(0 < pct ∧ pct < 1) then .error "Invalid pct_train value."
  else if limit < 3 then .error "Minimum limit value is 3."
  else
    let idx := build_triphones_indexer limit utts labels
    .ok (do
      let (f0, f1, f2) ← build_initial_split idx (ordersFrom utts fuel seed)
      let (g0, g1, g2) ←
        adjust_filesets (f0, f1, f2) pct idx (picksFrom fuel (lcg seed))
      return store_filesets
        [("train", g0), ("validation", g1), ("test", g2)])

/-- Label sequences of the three-utterance example corpus used in the
concrete scenarios: u1 and u2 read a, b, c; u3 reads x, y, z. -/
def exLabels : String → List (ℚ × String) := fun u =>
  if u = "u1" then [(1, "a"), (2, "b"), (3, "c")]
  else if u = "u2" then [(1, "a"), (2, "b"), (3, "c")]
  else if u = "u3" then [(1, "x"), (2, "y"), (3, "z")]
  else []

end Split

namespace Split

/-! ## Line-format round trip (Fileset Writer) -/

theorem splitLinesAux_no_newline (l : List Char) (acc : List Char)
    (hl : '\n' ∉ l) : splitLinesAux l acc = [acc.reverse ++ l] := by
  induction l generalizing acc with
  | nil => simp [splitLinesAux]
  | cons c cs ih =>
      have hc : ¬c = '\n' := fun h => hl (by simp [h])
      have hcs : '\n' ∉ cs := fun h => hl (List.mem_cons_of_mem _ h)
      simp only [splitLinesAux, if_neg hc, ih _ hcs]
      simp

theorem splitLinesAux_append_newline (l rest : List Char) (acc : List Char)
    (hl : '\n' ∉ l) :
    splitLinesAux (l ++ '\n' :: rest) acc
      = (acc.reverse ++ l) :: splitLinesAux rest [] := by
  induction l generalizing acc with
  | nil => simp [splitLinesAux]
  | cons c cs ih =>
      have hc : ¬c = '\n' := fun h => hl (by simp [h])
      have hcs : '\n' ∉ cs := fun h => hl (List.mem_cons_of_mem _ h)
      simp only [List.cons_append, splitLinesAux, if_neg hc, List.append_eq]
      rw [ih (c :: acc) hcs]
      simp

theorem splitLinesAux_joinLines (ls : List (List Char))
    (h : ∀ l ∈ ls, '\n' ∉ l) (hne : ls ≠ []) :
    splitLinesAux (joinLines ls) [] = ls := by
  induction ls with
  | nil => exact absurd rfl hne
  | cons l ls' ih =>
      cases ls' with
      | nil =>
          simp only [joinLines]
          simpa using splitLinesAux_no_newline l [] (h l (by simp))
      | cons l' ls'' =>
          rw [show joinLines (l :: l' :: ls'') = l ++ '\n' :: joinLines (l' :: ls'')
            from rfl]
          rw [splitLinesAux_append_newline l _ [] (h l (by simp))]
          rw [ih (fun x hx => h x (List.mem_cons_of_mem _ hx)) (by simp)]
          simp

theorem joinLines_ne_nil (l : List Char) (ls : List (List Char))
    (hl : l ≠ []) : joinLines (l :: ls) ≠ [] := by
  cases ls with
  | nil => simpa [joinLines] using hl
  | cons l' ls' =>
      rw [show joinLines (l :: l' :: ls') = l ++ '\n' :: joinLines (l' :: ls')
        from rfl]
      simp

/-- C9: for every fileset of non-empty, newline-free utterance identifiers,
every file produced by `store_filesets` reads back, line by line, as exactly
the ordered identifier list that was written. -/
theorem store_filesets_roundtrip (name : String) (fileset : List String)
    (h : ∀ s ∈ fileset, s.data ≠ [] ∧ '\n' ∉ s.data) :
    ∀ f ∈ store_filesets [(name, fileset)],
      readLines f.2 = fileset.map String.data := by
  intro f hf
  simp only [store_filesets, List.map_cons, List.map_nil, List.mem_singleton]
    at hf
  subst hf
  show readLines (joinLines (fileset.map String.data))
    = fileset.map String.data
  by_cases hfe : fileset = []
  · subst hfe
    simp [readLines, joinLines]
  · have hmem : ∀ l ∈ fileset.map String.data, '\n' ∉ l := by
      intro l hl
      obtain ⟨x, hx, hxl⟩ := List.mem_map.mp hl
      exact hxl ▸ (h x hx).2
    have hne : fileset.map String.data ≠ [] := by simpa using hfe
    have hjoin : joinLines (fileset.map String.data) ≠ [] := by
      cases fileset with
      | nil => exact absurd rfl hfe
      | cons s rest =>
          rw [List.map_cons]
          exact joinLines_ne_nil _ _ ((h s (by simp)).1)
    rw [readLines, if_neg hjoin]
    exact splitLinesAux_joinLines _ hmem hne

theorem store_filesets_roundtrip_witness :
    (∀ s ∈ ["u1", "u2", "u3"], s.data ≠ [] ∧ '\n' ∉ s.data) ∧
    ∀ f ∈ store_filesets [("train", ["u1", "u2", "u3"])],
      readLines f.2 = ["u1", "u2", "u3"].map String.data :=
  ⟨by decide, store_filesets_roundtrip "train" ["u1", "u2", "u3"] (by decide)⟩

/-! ## Target sizes (Rebalancer arithmetic) -/

/-- C4, counterexample: on 10 utterances with `pct_train = 0.7` the computed
target sizes are not train 7, validation 2, test 1 as the claim states. -/
theorem n_target_ten_seventy_not_721 : n_target 10 (7 / 10) ≠ (7, 2, 1) := by
  unfold n_target
  norm_num
  decide

/-- C4, amended: on 10 utterances with `pct_train = 0.7` the computed target
sizes are train 7, validation 1 (`floor(3 / 2)`), test 2. -/
theorem n_target_ten_seventy : n_target 10 (7 / 10) = (7, 1, 2) := by
  unfold n_target
  norm_num
  decide

/-! ## Triphone Indexer scenario -/

/-- C5: on the corpus u1 : a b c / u2 : a b c / u3 : x y z with limit 2, the
indexer keeps `a_b_c` (appearing in two utterances), drops `x_y_z`
(appearing in one), and maps u1 and u2 to the singleton `a_b_c` and u3 to
the empty set. -/
theorem build_triphones_indexer_scenario :
    build_triphones_indexer 2 ["u1", "u2", "u3"] exLabels "u1" = ["a_b_c"] ∧
    build_triphones_indexer 2 ["u1", "u2", "u3"] exLabels "u2" = ["a_b_c"] ∧
    build_triphones_indexer 2 ["u1", "u2", "u3"] exLabels "u3" = [] := by
  decide

/-! ## Configuration validation and determinism -/

/-- C7: whenever `pct_train` lies outside the open unit interval or `limit`
is below 3, the split procedure stops with an error before any indexing,
splitting, rebalancing or writing: the result is an `Except.error`, which
carries no file contents. -/
theorem split_corpus_prototype_config_error (pct : ℚ) (limit : ℤ) (seed : Nat)
    (utts : List String) (labels : String → List (ℚ × String)) (fuel : Nat)
    (h : ¬(0 < pct ∧ pct < 1) ∨ limit < 3) :
    ∃ msg, split_corpus_prototype pct limit seed utts labels fuel
      = .error msg := by
  unfold split_corpus_prototype
  rcases h with h | h
  · rw [if_pos h]
    exact ⟨_, rfl⟩
  · by_cases hp : 0 < pct ∧ pct < 1
    · rw [if_neg (not_not_intro hp), if_pos h]
      exact ⟨_, rfl⟩
    · rw [if_pos hp]
      exact ⟨_, rfl⟩

theorem split_corpus_prototype_config_error_witness :
    (¬((0 : ℚ) < 2 ∧ (2 : ℚ) < 1) ∨ (5 : ℤ) < 3) ∧
    ∃ msg, split_corpus_prototype 2 5 0 [] (fun _ => []) 0 = .error msg :=
  ⟨Or.inl (by norm_num),
    split_corpus_prototype_config_error 2 5 0 [] (fun _ => []) 0
      (Or.inl (by norm_num))⟩

/-- C8: the full split procedure is a pure function of the seed and the
corpus inputs — all randomness is drawn from the seeded generator stream —
so two invocations with the same seed and the same corpus give identical
results. -/
theorem split_corpus_prototype_deterministic (pct : ℚ) (limit : ℤ)
    (seed : Nat) (utts : List String) (labels : String → List (ℚ × String))
    (fuel : Nat)
    (r1 r2 : Except String (Option (List (String × List Char))))
    (h1 : r1 = split_corpus_prototype pct limit seed utts labels fuel)
    (h2 : r2 = split_corpus_prototype pct limit seed utts labels fuel) :
    r1 = r2 :=
  h1.trans h2.symm

theorem split_corpus_prototype_deterministic_witness :
    split_corpus_prototype (1 / 2) 3 0 [] (fun _ => []) 1
      = split_corpus_prototype (1 / 2) 3 0 [] (fun _ => []) 1 :=
  split_corpus_prototype_deterministic (1 / 2) 3 0 [] (fun _ => []) 1 _ _
    rfl rfl

end Split

namespace Split

/-! ## Rebalancer lemmas -/

theorem getD_mod_mem (l : List String) (p : Nat) (h : l ≠ []) :
    l.getD (p % l.length) "" ∈ l := by
  have hpos : 0 < l.length := List.length_pos.mpr h
  have hlt : p % l.length < l.length := Nat.mod_lt _ hpos
  rw [List.getD_eq_getElem?_getD, List.getElem?_eq_getElem hlt]
  exact List.getElem_mem hlt

theorem covers_append {idx : String → List String} {l l' : List String}
    {t : String} (h : covers idx l t) : covers idx (l ++ l') t := by
  obtain ⟨u, hu, htu⟩ := h
  exact ⟨u, List.mem_append_left _ hu, htu⟩

theorem covers_erase {idx : String → List String} {fs : List String}
    {t chosen : String} (hc : covers idx fs t)
    (hm : movable idx fs chosen = true) :
    covers idx (fs.erase chosen) t := by
  simp only [movable, List.all_eq_true, decide_eq_true_eq] at hm
  by_cases hch : chosen ∈ fs
  · by_cases ht : t ∈ idx chosen
    · have h2 : 1 < (fs.filter (fun u => t ∈ idx u)).length := hm t ht
      obtain ⟨l₁, l₂, hnot, heq, herase⟩ := List.exists_erase_eq hch
      rw [herase]
      rw [heq] at h2
      simp only [List.filter_append, List.filter_cons, decide_eq_true_eq,
        List.length_append, ht, if_pos, List.length_cons] at h2
      have hpos : 0 < ((l₁ ++ l₂).filter (fun u => t ∈ idx u)).length := by
        simp only [List.filter_append, List.length_append]
        omega
      obtain ⟨u, hu⟩ := List.exists_mem_of_length_pos hpos
      obtain ⟨humem, htu⟩ := List.mem_filter.mp hu
      exact ⟨u, humem, by simpa using htu⟩
    · obtain ⟨u, hu, htu⟩ := hc
      have hne : u ≠ chosen := fun he => ht (he ▸ htu)
      exact ⟨u, (List.mem_erase_of_ne hne).mpr hu, htu⟩
  · rw [List.erase_of_not_mem hch]
    exact hc

theorem removeLoop_covers {idx : String → List String} {nMoves : Nat} :
    ∀ (picks : List Nat) (fs moved : List String)
      (r : List String × List String × List Nat),
      removeLoop idx nMoves picks fs moved = some r →
      ∀ t, covers idx fs t → covers idx r.1 t := by
  intro picks
  induction picks with
  | nil =>
      intro fs moved r h t hc
      simp only [removeLoop] at h
      split at h
      · injection h with h
        subst h
        exact hc
      · exact absurd h (by simp)
  | cons p rest ih =>
      intro fs moved r h t hc
      simp only [removeLoop] at h
      split at h
      · injection h with h
        subst h
        exact hc
      · split at h
        · exact absurd h (by simp)
        · split at h
          · next hmov =>
              exact ih _ _ _ h t (covers_erase hc hmov)
          · exact ih _ _ _ h t hc

theorem removeLoop_length {idx : String → List String} {nMoves : Nat} :
    ∀ (picks : List Nat) (fs moved : List String)
      (r : List String × List String × List Nat),
      removeLoop idx nMoves picks fs moved = some r →
      r.2.1.length = max nMoves moved.length ∧
      r.1.length + r.2.1.length = fs.length + moved.length := by
  intro picks
  induction picks with
  | nil =>
      intro fs moved r h
      simp only [removeLoop] at h
      split at h
      · next hle =>
          injection h with h
          subst h
          simp [Nat.max_eq_right hle]
      · exact absurd h (by simp)
  | cons p rest ih =>
      intro fs moved r h
      simp only [removeLoop] at h
      split at h
      · next hle =>
          injection h with h
          subst h
          simp [Nat.max_eq_right hle]
      · next hgt =>
          split at h
          · exact absurd h (by simp)
          · next hne =>
              have hfs : fs ≠ [] := by simpa using hne
              have hmem := getD_mod_mem fs p hfs
              have hlen : 0 < fs.length := List.length_pos.mpr hfs
              split at h
              · obtain ⟨h1, h2⟩ := ih _ _ _ h
                rw [List.length_erase_of_mem hmem] at h2
                simp only [List.length_append, List.length_cons,
                  List.length_nil] at h1 h2
                omega
              · obtain ⟨h1, h2⟩ := ih _ _ _ h
                omega

theorem shrinkFileset_covers {idx : String → List String}
    {fs : List String} {size : ℤ} {picks : List Nat}
    {r : List String × List String × List Nat}
    (h : shrinkFileset idx fs size picks = some r) :
    ∀ t, covers idx fs t → covers idx r.1 t := by
  unfold shrinkFileset at h
  split at h
  · exact removeLoop_covers _ _ _ _ h
  · injection h with h
    subst h
    exact fun t hc => hc

theorem shrinkFileset_length {idx : String → List String}
    {fs : List String} {size : ℤ} {picks : List Nat}
    {r : List String × List String × List Nat}
    (h : shrinkFileset idx fs size picks = some r) :
    (r.1.length : ℤ) = min (fs.length : ℤ) size := by
  unfold shrinkFileset at h
  split at h
  · next hgt =>
      obtain ⟨h1, h2⟩ := removeLoop_length _ _ _ _ h
      simp only [List.length_nil] at h1 h2
      omega
  · next hle =>
      injection h with h
      subst h
      show (fs.length : ℤ) = min (fs.length : ℤ) size
      omega

theorem addLoop_prefix :
    ∀ (k : Nat) (picks : List Nat) (fs pool : List String)
      (r : List String × List String × List Nat),
      addLoop k picks fs pool = some r →
      (∃ added, r.1 = fs ++ added) ∧ r.1.length = fs.length + k := by
  intro k
  induction k with
  | zero =>
      intro picks fs pool r h
      simp only [addLoop] at h
      injection h with h
      subst h
      exact ⟨⟨[], by simp⟩, by simp⟩
  | succ n ih =>
      intro picks fs pool r h
      cases picks with
      | nil => simp [addLoop] at h
      | cons p rest =>
          simp only [addLoop] at h
          split at h
          · exact absurd h (by simp)
          · obtain ⟨⟨added, hadd⟩, hlen⟩ := ih _ _ _ _ h
            constructor
            · exact ⟨pool.getD (p % pool.length) "" :: added,
                by rw [hadd]; simp⟩
            · rw [hlen]
              simp only [List.length_append, List.length_cons,
                List.length_nil]
              omega

theorem n_target_bounds (total : ℕ) (pct : ℚ) (hp0 : 0 < pct)
    (hp1 : pct < 1) :
    0 ≤ (n_target total pct).1 ∧ (n_target total pct).1 ≤ total ∧
    0 ≤ (n_target total pct).2.1 ∧
    (n_target total pct).1 + (n_target total pct).2.1 ≤ total ∧
    (n_target total pct).1 + (n_target total pct).2.1
      + (n_target total pct).2.2 = total := by
  unfold n_target
  simp only
  have h0 : 0 ≤ (⌈(total : ℚ) * pct⌉ : ℤ) :=
    Int.ceil_nonneg (by positivity)
  have h1 : (⌈(total : ℚ) * pct⌉ : ℤ) ≤ total := by
    rw [Int.ceil_le]
    push_cast
    exact mul_le_of_le_one_right (by positivity) hp1.le
  have h2 : 0 ≤ ((total : ℤ) - ⌈(total : ℚ) * pct⌉).fdiv 2 :=
    Int.fdiv_nonneg (by omega) (by norm_num)
  have h3 : ((total : ℤ) - ⌈(total : ℚ) * pct⌉).fdiv 2
      ≤ (total : ℤ) - ⌈(total : ℚ) * pct⌉ := by
    rw [Int.fdiv_eq_ediv _ (by norm_num)]
    exact Int.ediv_le_self _ (by omega)
  refine ⟨h0, h1, h2, by omega, by ring⟩

/-- C2: whenever the Rebalancer terminates, a triphone covered by each of
the three input filesets is still covered by each of the three output
filesets: movability forbids removing a fileset's last carrier of any
indexed triphone, and insertions only grow coverage. -/
theorem adjust_filesets_preserves_coverage (f0 f1 f2 : List String)
    (pct : ℚ) (idx : String → List String) (picks : List Nat)
    (g0 g1 g2 : List String)
    (hadj : adjust_filesets (f0, f1, f2) pct idx picks = some (g0, g1, g2))
    (t : String) (h0 : covers idx f0 t) (h1 : covers idx f1 t)
    (h2 : covers idx f2 t) :
    covers idx g0 t ∧ covers idx g1 t ∧ covers idx g2 t := by
  simp only [adjust_filesets, Option.bind_eq_some] at hadj
  obtain ⟨r0, hr0, r1, hr1, r2, hr2, a0, ha0, a1, ha1, a2, ha2, heq⟩ := hadj
  simp only [Option.some.injEq, Prod.mk.injEq] at heq
  obtain ⟨hg0, hg1, hg2⟩ := heq
  subst hg0
  subst hg1
  subst hg2
  refine ⟨?_, ?_, ?_⟩
  · obtain ⟨⟨added, hadd⟩, -⟩ := addLoop_prefix _ _ _ _ _ ha0
    rw [hadd]
    exact covers_append (shrinkFileset_covers hr0 t h0)
  · obtain ⟨⟨added, hadd⟩, -⟩ := addLoop_prefix _ _ _ _ _ ha1
    rw [hadd]
    exact covers_append (shrinkFileset_covers hr1 t h1)
  · obtain ⟨⟨added, hadd⟩, -⟩ := addLoop_prefix _ _ _ _ _ ha2
    rw [hadd]
    exact covers_append (shrinkFileset_covers hr2 t h2)

theorem adjust_filesets_preserves_coverage_witness :
    (adjust_filesets (["a", "b"], ["c"], ["d"]) (1 / 2) (fun _ => ["t"]) []
      = some (["a", "b"], ["c"], ["d"])) ∧
    covers (fun _ => ["t"]) ["a", "b"] "t" ∧
    covers (fun _ => ["t"]) ["c"] "t" ∧ covers (fun _ => ["t"]) ["d"] "t" := by
  have hadj : adjust_filesets (["a", "b"], ["c"], ["d"]) (1 / 2)
      (fun _ => ["t"]) [] = some (["a", "b"], ["c"], ["d"]) := by
    have hn : n_target 4 (1 / 2) = (2, 1, 1) := by
      unfold n_target
      norm_num
    simp only [adjust_filesets]
    norm_num [hn]
    all_goals decide
  exact ⟨hadj,
    adjust_filesets_preserves_coverage _ _ _ _ _ _ _ _ _ hadj "t"
      ⟨"a", by simp, by simp⟩ ⟨"c", by simp, by simp⟩ ⟨"d", by simp, by simp⟩⟩

/-- C3: whenever the Rebalancer terminates with 0 < pct_train < 1, the three
output filesets have exactly the target sizes train = ceil(total * pct),
validation = floor((total - train) / 2), test = total - train - validation,
and their sizes sum to the input total. -/
theorem adjust_filesets_sizes (f0 f1 f2 : List String) (pct : ℚ)
    (idx : String → List String) (picks : List Nat) (g0 g1 g2 : List String)
    (hp0 : 0 < pct) (hp1 : pct < 1)
    (hadj : adjust_filesets (f0, f1, f2) pct idx picks = some (g0, g1, g2)) :
    (g0.length : ℤ)
        = (n_target (f0.length + f1.length + f2.length) pct).1 ∧
    (g1.length : ℤ)
        = (n_target (f0.length + f1.length + f2.length) pct).2.1 ∧
    (g2.length : ℤ)
        = (n_target (f0.length + f1.length + f2.length) pct).2.2 ∧
    g0.length + g1.length + g2.length
      = f0.length + f1.length + f2.length := by
  obtain ⟨hb0, hb1, hb2, hb3, hb4⟩ :=
    n_target_bounds (f0.length + f1.length + f2.length) pct hp0 hp1
  simp only [adjust_filesets, Option.bind_eq_some] at hadj
  obtain ⟨r0, hr0, r1, hr1, r2, hr2, a0, ha0, a1, ha1, a2, ha2, heq⟩ := hadj
  simp only [Option.some.injEq, Prod.mk.injEq] at heq
  obtain ⟨hg0, hg1, hg2⟩ := heq
  subst hg0
  subst hg1
  subst hg2
  have hl0 := shrinkFileset_length hr0
  have hl1 := shrinkFileset_length hr1
  have hl2 := shrinkFileset_length hr2
  obtain ⟨-, ha0l⟩ := addLoop_prefix _ _ _ _ _ ha0
  obtain ⟨-, ha1l⟩ := addLoop_prefix _ _ _ _ _ ha1
  obtain ⟨-, ha2l⟩ := addLoop_prefix _ _ _ _ _ ha2
  simp only at hl0 hl1 hl2 ha0l ha1l ha2l
  omega

theorem adjust_filesets_sizes_witness :
    (0 : ℚ) < 1 / 2 ∧ (1 / 2 : ℚ) < 1 ∧
    ((["a", "b"] : List String).length : ℤ)
      = (n_target ((["a", "b"] : List String).length
          + (["c"] : List String).length
          + (["d"] : List String).length) (1 / 2)).1 := by
  have hadj : adjust_filesets (["a", "b"], ["c"], ["d"]) (1 / 2)
      (fun _ => ["t"]) [] = some (["a", "b"], ["c"], ["d"]) := by
    have hn : n_target 4 (1 / 2) = (2, 1, 1) := by
      unfold n_target
      norm_num
    simp only [adjust_filesets]
    norm_num [hn]
    all_goals decide
  have h := adjust_filesets_sizes ["a", "b"] ["c"] ["d"] (1 / 2)
    (fun _ => ["t"]) [] ["a", "b"] ["c"] ["d"] (by norm_num) (by norm_num)
    hadj
  exact ⟨by norm_num, by norm_num, h.1⟩

/-- C10: a fileset whose length already equals its computed target size is
returned unchanged by the Rebalancer — same utterances in the same order:
the removal loop skips filesets that are not oversized, and the dispatch
loop appends nothing when the deficit is zero. -/
theorem adjust_filesets_frame (f0 f1 f2 : List String) (pct : ℚ)
    (idx : String → List String) (picks : List Nat) (g0 g1 g2 : List String)
    (hadj : adjust_filesets (f0, f1, f2) pct idx picks = some (g0, g1, g2)) :
    (((f0.length : ℤ)
        = (n_target (f0.length + f1.length + f2.length) pct).1) → g0 = f0) ∧
    (((f1.length : ℤ)
        = (n_target (f0.length + f1.length + f2.length) pct).2.1)
      → g1 = f1) ∧
    (((f2.length : ℤ)
        = (n_target (f0.length + f1.length + f2.length) pct).2.2)
      → g2 = f2) := by
  simp only [adjust_filesets, Option.bind_eq_some] at hadj
  obtain ⟨r0, hr0, r1, hr1, r2, hr2, a0, ha0, a1, ha1, a2, ha2, heq⟩ := hadj
  simp only [Option.some.injEq, Prod.mk.injEq] at heq
  obtain ⟨hg0, hg1, hg2⟩ := heq
  subst hg0
  subst hg1
  subst hg2
  refine ⟨fun hlen => ?_, fun hlen => ?_, fun hlen => ?_⟩
  · unfold shrinkFileset at hr0
    rw [if_neg (by omega)] at hr0
    injection hr0 with hr0
    subst hr0
    rw [show ((n_target (f0.length + f1.length + f2.length) pct).1
      - ((f0, [], picks) : List String × List String × List Nat).1.length
        : ℤ).toNat = 0 from by simp only; omega] at ha0
    simp only [addLoop] at ha0
    injection ha0 with ha0
    subst ha0
    rfl
  · unfold shrinkFileset at hr1
    rw [if_neg (by omega)] at hr1
    injection hr1 with hr1
    subst hr1
    rw [show ((n_target (f0.length + f1.length + f2.length) pct).2.1
      - ((f1, [], r0.2.2) : List String × List String × List Nat).1.length
        : ℤ).toNat = 0 from by simp only; omega] at ha1
    simp only [addLoop] at ha1
    injection ha1 with ha1
    subst ha1
    rfl
  · unfold shrinkFileset at hr2
    rw [if_neg (by omega)] at hr2
    injection hr2 with hr2
    subst hr2
    rw [show ((n_target (f0.length + f1.length + f2.length) pct).2.2
      - ((f2, [], r1.2.2) : List String × List String × List Nat).1.length
        : ℤ).toNat = 0 from by simp only; omega] at ha2
    simp only [addLoop] at ha2
    injection ha2 with ha2
    subst ha2
    rfl

theorem adjust_filesets_frame_witness :
    (adjust_filesets (["a", "b"], ["c"], ["d"]) (1 / 2) (fun _ => ["t"]) []
      = some (["a", "b"], ["c"], ["d"])) ∧
    (["a", "b"] : List String) = ["a", "b"] := by
  have hadj : adjust_filesets (["a", "b"], ["c"], ["d"]) (1 / 2)
      (fun _ => ["t"]) [] = some (["a", "b"], ["c"], ["d"]) := by
    have hn : n_target 4 (1 / 2) = (2, 1, 1) := by
      unfold n_target
      norm_num
    simp only [adjust_filesets]
    norm_num [hn]
    all_goals decide
  have h := adjust_filesets_frame ["a", "b"] ["c"] ["d"] (1 / 2)
    (fun _ => ["t"]) [] ["a", "b"] ["c"] ["d"] hadj
  refine ⟨hadj, h.1 ?_⟩
  have hn : n_target 4 (1 / 2) = (2, 1, 1) := by
    unfold n_target
    norm_num
  show (2 : ℤ) = (n_target 4 (1 / 2)).1
  rw [hn]

end Split

namespace Split

/-! ## Initial Splitter lemmas -/

theorem mem_listUnion {p : String} {l r : List String} :
    p ∈ listUnion l r ↔ p ∈ l ∨ p ∈ r := by
  simp only [listUnion, List.mem_append, List.mem_filter, decide_eq_true_eq]
  tauto

theorem assignUtt_eq_first {idx : String → List String} {s : FS × FS × FS}
    {a : String}
    (h : gain idx s.2.1 a ≤ gain idx s.1 a ∧
      gain idx s.2.2 a ≤ gain idx s.1 a) :
    assignUtt idx s a = (addTo idx s.1 a, s.2.1, s.2.2) := by
  simp only [assignUtt, if_pos h]

theorem assignUtt_eq_second {idx : String → List String} {s : FS × FS × FS}
    {a : String}
    (h : ¬(gain idx s.2.1 a ≤ gain idx s.1 a ∧
      gain idx s.2.2 a ≤ gain idx s.1 a))
    (h2 : gain idx s.2.2 a ≤ gain idx s.2.1 a) :
    assignUtt idx s a = (s.1, addTo idx s.2.1 a, s.2.2) := by
  simp only [assignUtt, if_neg h, if_pos h2]

theorem assignUtt_eq_third {idx : String → List String} {s : FS × FS × FS}
    {a : String}
    (h : ¬(gain idx s.2.1 a ≤ gain idx s.1 a ∧
      gain idx s.2.2 a ≤ gain idx s.1 a))
    (h2 : ¬gain idx s.2.2 a ≤ gain idx s.2.1 a) :
    assignUtt idx s a = (s.1, s.2.1, addTo idx s.2.2 a) := by
  simp only [assignUtt, if_neg h, if_neg h2]

theorem addTo_phones_sem {idx : String → List String} {fs : FS} {u : String}
    (h : ∀ p, p ∈ fs.phones ↔ ∃ v ∈ fs.utt, p ∈ idx v) :
    ∀ p, p ∈ (addTo idx fs u).phones
      ↔ ∃ v ∈ (addTo idx fs u).utt, p ∈ idx v := by
  intro p
  simp only [addTo, mem_listUnion, h p, List.mem_append,
    List.mem_singleton]
  constructor
  · rintro (⟨v, hv, hpv⟩ | hpu)
    · exact ⟨v, Or.inl hv, hpv⟩
    · exact ⟨u, Or.inr rfl, hpu⟩
  · rintro ⟨v, hv | rfl, hpv⟩
    · exact Or.inl ⟨v, hv, hpv⟩
    · exact Or.inr hpv

theorem assignUtt_phones_sem {idx : String → List String} {s : FS × FS × FS}
    {a : String}
    (h0 : ∀ p, p ∈ s.1.phones ↔ ∃ v ∈ s.1.utt, p ∈ idx v)
    (h1 : ∀ p, p ∈ s.2.1.phones ↔ ∃ v ∈ s.2.1.utt, p ∈ idx v)
    (h2 : ∀ p, p ∈ s.2.2.phones ↔ ∃ v ∈ s.2.2.utt, p ∈ idx v) :
    (∀ p, p ∈ (assignUtt idx s a).1.phones
        ↔ ∃ v ∈ (assignUtt idx s a).1.utt, p ∈ idx v) ∧
    (∀ p, p ∈ (assignUtt idx s a).2.1.phones
        ↔ ∃ v ∈ (assignUtt idx s a).2.1.utt, p ∈ idx v) ∧
    (∀ p, p ∈ (assignUtt idx s a).2.2.phones
        ↔ ∃ v ∈ (assignUtt idx s a).2.2.utt, p ∈ idx v) := by
  by_cases hA : gain idx s.2.1 a ≤ gain idx s.1 a ∧
      gain idx s.2.2 a ≤ gain idx s.1 a
  · rw [assignUtt_eq_first hA]
    exact ⟨addTo_phones_sem h0, h1, h2⟩
  · by_cases hB : gain idx s.2.2 a ≤ gain idx s.2.1 a
    · rw [assignUtt_eq_second hA hB]
      exact ⟨h0, addTo_phones_sem h1, h2⟩
    · rw [assignUtt_eq_third hA hB]
      exact ⟨h0, h1, addTo_phones_sem h2⟩

theorem foldl_assign_phones_sem (idx : String → List String) :
    ∀ (order : List String) (s : FS × FS × FS),
      (∀ p, p ∈ s.1.phones ↔ ∃ v ∈ s.1.utt, p ∈ idx v) →
      (∀ p, p ∈ s.2.1.phones ↔ ∃ v ∈ s.2.1.utt, p ∈ idx v) →
      (∀ p, p ∈ s.2.2.phones ↔ ∃ v ∈ s.2.2.utt, p ∈ idx v) →
      (∀ p, p ∈ (order.foldl (assignUtt idx) s).1.phones
          ↔ ∃ v ∈ (order.foldl (assignUtt idx) s).1.utt, p ∈ idx v) ∧
      (∀ p, p ∈ (order.foldl (assignUtt idx) s).2.1.phones
          ↔ ∃ v ∈ (order.foldl (assignUtt idx) s).2.1.utt, p ∈ idx v) ∧
      (∀ p, p ∈ (order.foldl (assignUtt idx) s).2.2.phones
          ↔ ∃ v ∈ (order.foldl (assignUtt idx) s).2.2.utt, p ∈ idx v) := by
  intro order
  induction order with
  | nil => exact fun s h0 h1 h2 => ⟨h0, h1, h2⟩
  | cons a as ih =>
      intro s h0 h1 h2
      rw [List.foldl_cons]
      obtain ⟨k0, k1, k2⟩ := assignUtt_phones_sem h0 h1 h2 (a := a)
      exact ih _ k0 k1 k2

theorem assignUtt_utt_mem (idx : String → List String) (s : FS × FS × FS)
    (a u : String) :
    (u ∈ (assignUtt idx s a).1.utt ∨ u ∈ (assignUtt idx s a).2.1.utt ∨
      u ∈ (assignUtt idx s a).2.2.utt)
    ↔ (u ∈ s.1.utt ∨ u ∈ s.2.1.utt ∨ u ∈ s.2.2.utt ∨ u = a) := by
  by_cases hA : gain idx s.2.1 a ≤ gain idx s.1 a ∧
      gain idx s.2.2 a ≤ gain idx s.1 a
  · rw [assignUtt_eq_first hA]
    simp only [addTo, List.mem_append, List.mem_singleton]
    tauto
  · by_cases hB : gain idx s.2.2 a ≤ gain idx s.2.1 a
    · rw [assignUtt_eq_second hA hB]
      simp only [addTo, List.mem_append, List.mem_singleton]
      tauto
    · rw [assignUtt_eq_third hA hB]
      simp only [addTo, List.mem_append, List.mem_singleton]

theorem foldl_assign_utt_mem (idx : String → List String) :
    ∀ (order : List String) (s : FS × FS × FS) (u : String),
      (u ∈ (order.foldl (assignUtt idx) s).1.utt ∨
        u ∈ (order.foldl (assignUtt idx) s).2.1.utt ∨
        u ∈ (order.foldl (assignUtt idx) s).2.2.utt)
      ↔ (u ∈ s.1.utt ∨ u ∈ s.2.1.utt ∨ u ∈ s.2.2.utt ∨ u ∈ order) := by
  intro order
  induction order with
  | nil => simp
  | cons a as ih =>
      intro s u
      rw [List.foldl_cons, ih]
      have hstep := assignUtt_utt_mem idx s a u
      simp only [List.mem_cons]
      tauto

theorem setEqB_iff {l r : List String} :
    setEqB l r = true ↔ ∀ x, x ∈ l ↔ x ∈ r := by
  simp only [setEqB, Bool.and_eq_true, List.all_eq_true, decide_eq_true_eq]
  constructor
  · rintro ⟨h1, h2⟩ x
    exact ⟨fun hx => h1 x hx, fun hx => h2 x hx⟩
  · intro h
    exact ⟨fun x hx => (h x).mp hx, fun x hx => (h x).mpr hx⟩

/-- C1: whenever `build_initial_split` returns (the coverage check passed on
the final pass), the three returned filesets' covered-triphone sets are
pairwise equal and each equals the full qualifying-triphone set — the union
of the triphone sets of all utterances in the index. -/
theorem build_initial_split_coverage (idx : String → List String)
    (utts : List String) (orders : List (List String))
    (g0 g1 g2 : List String)
    (hperm : ∀ o ∈ orders, o.Perm utts)
    (hsplit : build_initial_split idx orders = some (g0, g1, g2)) :
    ∀ t, (covers idx g0 t ↔ ∃ u ∈ utts, t ∈ idx u) ∧
         (covers idx g1 t ↔ ∃ u ∈ utts, t ∈ idx u) ∧
         (covers idx g2 t ↔ ∃ u ∈ utts, t ∈ idx u) := by
  revert hperm hsplit
  induction orders with
  | nil =>
      intro hperm hsplit
      simp [build_initial_split] at hsplit
  | cons o rest ih =>
      intro hperm hsplit
      simp only [build_initial_split] at hsplit
      split at hsplit
      · next hcov =>
          simp only [Option.some.injEq, Prod.mk.injEq] at hsplit
          obtain ⟨hg0, hg1, hg2⟩ := hsplit
          subst hg0
          subst hg1
          subst hg2
          have hperm_o : o.Perm utts := hperm o (by simp)
          obtain ⟨hs0, hs1, hs2⟩ := foldl_assign_phones_sem idx o
            (⟨[], []⟩, ⟨[], []⟩, ⟨[], []⟩) (by simp) (by simp) (by simp)
          have hmem := fun u => foldl_assign_utt_mem idx o
            (⟨[], []⟩, ⟨[], []⟩, ⟨[], []⟩) u
          simp only [List.not_mem_nil, false_or] at hmem
          simp only [allCovered, Bool.and_eq_true, setEqB_iff] at hcov
          obtain ⟨hc1, hc2⟩ := hcov
          have hfull : ∀ t, t ∈ (initialPass idx o).1.phones
              ↔ ∃ u ∈ utts, t ∈ idx u := by
            intro t
            constructor
            · intro ht
              obtain ⟨u, hu, htu⟩ := (hs0 t).mp ht
              exact ⟨u, hperm_o.mem_iff.mp ((hmem u).mp (Or.inl hu)), htu⟩
            · rintro ⟨u, hu, htu⟩
              rcases (hmem u).mpr (hperm_o.mem_iff.mpr hu) with h | h | h
              · exact (hs0 t).mpr ⟨u, h, htu⟩
              · exact (hc1 t).mpr ((hs1 t).mpr ⟨u, h, htu⟩)
              · exact (hc1 t).mpr ((hc2 t).mpr ((hs2 t).mpr ⟨u, h, htu⟩))
          intro t
          refine ⟨?_, ?_, ?_⟩
          · rw [show covers idx (initialPass idx o).1.utt t
                ↔ t ∈ (initialPass idx o).1.phones from (hs0 t).symm]
            exact hfull t
          · rw [show covers idx (initialPass idx o).2.1.utt t
                ↔ t ∈ (initialPass idx o).2.1.phones from (hs1 t).symm]
            rw [show (t ∈ (initialPass idx o).2.1.phones)
                ↔ t ∈ (initialPass idx o).1.phones from (hc1 t).symm]
            exact hfull t
          · rw [show covers idx (initialPass idx o).2.2.utt t
                ↔ t ∈ (initialPass idx o).2.2.phones from (hs2 t).symm]
            rw [show (t ∈ (initialPass idx o).2.2.phones)
                ↔ t ∈ (initialPass idx o).2.1.phones from (hc2 t).symm]
            rw [show (t ∈ (initialPass idx o).2.1.phones)
                ↔ t ∈ (initialPass idx o).1.phones from (hc1 t).symm]
            exact hfull t
      · next hncov =>
          exact ih (fun o' ho' => hperm o' (List.mem_cons_of_mem _ ho'))
            hsplit

theorem build_initial_split_coverage_witness :
    (∀ o ∈ [["u1", "u2", "u3"]], o.Perm ["u1", "u2", "u3"]) ∧
    ((covers (fun _ => ["t"]) ["u1"] "t"
        ↔ ∃ u ∈ ["u1", "u2", "u3"], "t" ∈ (fun _ => ["t"] : String → List String) u) ∧
     (covers (fun _ => ["t"]) ["u2"] "t"
        ↔ ∃ u ∈ ["u1", "u2", "u3"], "t" ∈ (fun _ => ["t"] : String → List String) u) ∧
     (covers (fun _ => ["t"]) ["u3"] "t"
        ↔ ∃ u ∈ ["u1", "u2", "u3"], "t" ∈ (fun _ => ["t"] : String → List String) u)) := by
  have hperm : ∀ o ∈ [["u1", "u2", "u3"]], o.Perm ["u1", "u2", "u3"] := by
    intro o ho
    simp only [List.mem_singleton] at ho
    subst ho
    exact List.Perm.refl _
  have hsplit : build_initial_split (fun _ => ["t"]) [["u1", "u2", "u3"]]
      = some (["u1"], ["u2"], ["u3"]) := by decide
  exact ⟨hperm,
    build_initial_split_coverage (fun _ => ["t"]) ["u1", "u2", "u3"]
      [["u1", "u2", "u3"]] ["u1"] ["u2"] ["u3"] hperm hsplit "t"⟩

/-! ## Trivial split on corpora with no triphones -/

theorem triphoneWindows_nil_of_short :
    ∀ (l : List (ℚ × String)), l.length < 3 → triphoneWindows l = []
  | [], _ => rfl
  | [_], _ => rfl
  | [_, _], _ => rfl
  | _ :: _ :: _ :: _, h => absurd h (by simp)

theorem indexer_empty_of_short (utts : List String)
    (labels : String → List (ℚ × String))
    (hshort : ∀ u ∈ utts, (labels u).length < 3) :
    ∀ u, build_triphones_indexer 3 utts labels u = [] := by
  intro u
  unfold build_triphones_indexer
  simp only
  have hcount : ∀ t,
      (utts.filter (fun v => t ∈ load_triphones (labels v))).length = 0 := by
    intro t
    rw [List.length_eq_zero, List.filter_eq_nil_iff]
    intro v hv
    simp only [load_triphones, triphoneWindows_nil_of_short _ (hshort v hv),
      decide_eq_true_eq]
    show t ∉ ([] : List String).eraseDups
    exact List.not_mem_nil t
  rw [List.filter_eq_nil_iff]
  intro t ht
  simp only [hcount t, decide_eq_true_eq, Nat.cast_zero]
  norm_num

theorem foldl_assign_empty_idx (idx : String → List String)
    (hidx : ∀ u, idx u = []) :
    ∀ (order : List String) (l : List String),
      order.foldl (assignUtt idx) (⟨l, []⟩, ⟨[], []⟩, ⟨[], []⟩)
        = (⟨l ++ order, []⟩, ⟨[], []⟩, ⟨[], []⟩) := by
  intro order
  induction order with
  | nil => intro l; simp
  | cons a as ih =>
      intro l
      rw [List.foldl_cons]
      have hstep : assignUtt idx (⟨l, []⟩, ⟨[], []⟩, ⟨[], []⟩) a
          = (⟨l ++ [a], []⟩, ⟨[], []⟩, ⟨[], []⟩) := by
        rw [assignUtt_eq_first (by simp [gain, hidx])]
        simp [addTo, listUnion, hidx]
      rw [hstep, ih]
      simp

/-- C6: on a corpus whose utterances all have fewer than 3 phone labels,
with limit 3, the indexer maps every utterance to the empty triphone set,
and `build_initial_split` succeeds on its very first pass — the result is
computed from the first visiting order alone (all three coverage sets are
empty, so the coverage check passes with no restart; all utterances land in
the first fileset by the stable argmax on all-zero gains). -/
theorem initial_split_trivial_on_short_corpus (utts : List String)
    (labels : String → List (ℚ × String))
    (hshort : ∀ u ∈ utts, (labels u).length < 3)
    (o : List String) (rest : List (List String)) :
    (∀ u, build_triphones_indexer 3 utts labels u = []) ∧
    build_initial_split (build_triphones_indexer 3 utts labels) (o :: rest)
      = some (o, [], []) := by
  have hidx := indexer_empty_of_short utts labels hshort
  refine ⟨hidx, ?_⟩
  simp only [build_initial_split]
  have hpass : initialPass (build_triphones_indexer 3 utts labels) o
      = (⟨o, []⟩, ⟨[], []⟩, ⟨[], []⟩) := by
    unfold initialPass
    simpa using foldl_assign_empty_idx _ hidx o []
  rw [hpass]
  rfl

theorem initial_split_trivial_witness :
    (∀ u ∈ ["u1"],
      (((fun v => if v = "u1" then [((0 : ℚ), "a")] else [])
        : String → List (ℚ × String)) u).length < 3) ∧
    build_initial_split
        (build_triphones_indexer 3 ["u1"]
          (fun v => if v = "u1" then [((0 : ℚ), "a")] else []))
        [["u1"]]
      = some (["u1"], [], []) := by
  refine ⟨by decide, ?_⟩
  exact (initial_split_trivial_on_short_corpus ["u1"]
    (fun v => if v = "u1" then [((0 : ℚ), "a")] else [])
    (by decide) ["u1"] []).2

end Split
